import Mathlib

/-!
Verification of the canto-curses terminal core (src/canto_curses/screen.py and
src/canto_curses/gui.py) against its natural-language specification.

The Python sources are shallowly embedded below:

* machine integers are modelled as `Int`; Python 2 integer division (`/` on
  ints, i.e. floor division) is `Int.fdiv`;
* fallible calls return `Option`: `curses.newpad(nlines, ncols)` fails unless
  both dimensions are positive, and Python's `max([])` raises `ValueError`;
* object identity (Python `==`/`!=` between window objects) is modelled by a
  numeric identity field `rid` carried by every `Region`;
* the per-window configuration (`get_opt` answers for `<name>.maxheight`,
  `<name>.maxwidth`, `<name>.align`, `<name>.float`) and the size-request
  methods (`get_height`, `get_width`) are carried as fields of `Region`, since
  the claims hold them fixed.
-/

namespace CantoCurses

/-- A window object, as the Screen class sees one: an identity, its
configuration options, and its size-request methods.  `maxheight = 0` or
`maxwidth = 0` models an unset (falsy) config option, matching the
`if not cfg_height` test in `Screen._subw_size_height`. -/
structure Region where
  rid : Nat
  rname : String
  align : String
  flt : Bool
  maxheight : Int
  maxwidth : Int
  reqHeight : Int → Int
  reqWidth : Int → Int

/-- The rectangle a window is bound to: arguments of `Screen._subw_init`. -/
structure Rect where
  top : Int
  left : Int
  height : Int
  width : Int
deriving DecidableEq, Repr

/-- Stacking orientation used by `Screen._subw`. -/
inductive Orient where
  | horizontal
  | vertical
deriving DecidableEq, Repr

/-- Dimension selector used by `Screen._subw_layout_size`. -/
inductive Dim where
  | height
  | width
deriving DecidableEq, Repr

/-- A layout node handed to `Screen._subw`: a window (leaf) or a nested list. -/
inductive LNode where
  | leaf (r : Region)
  | branch (children : List LNode)

/-- A placed layout node: each leaf now carries the rectangle chosen for it. -/
inductive PNode where
  | leaf (r : Region) (rect : Rect)
  | branch (children : List PNode)

/-! ## Command splitting (gui.py, `CantoCursesGui.cmdsplit`)

`cmdsplit` calls `escsplit(cmd, " &")` from `canto_next.format`, which is not
part of this repository's sources. -/

/-- Modelled from the spec: `escsplit` (from the external `canto_next.format`
module) splits a string on every unescaped separator, here an ampersand
preceded by whitespace; a backslash escapes the following character and is
dropped from the output. -/
def escsplit : List Char → List Char → List String
  | [], acc => [String.mk acc.reverse]
  | '\\' :: c :: rest, acc => escsplit rest (c :: acc)
  | ' ' :: '&' :: rest, acc => String.mk acc.reverse :: escsplit rest []
  | c :: rest, acc => escsplit rest (c :: acc)

/-- Python's `str.lstrip()`: strip leading whitespace. -/
def lstrip (s : String) : String :=
  String.mk (s.toList.dropWhile Char.isWhitespace)

/-- `CantoCursesGui.cmdsplit`: split on the unescaped separator, then lstrip
each resulting piece. -/
def cmdsplit (cmd : String) : List String :=
  (escsplit cmd.toList []).map lstrip

/-! ## Optional integer argument (screen.py, `Screen.optint`) -/

/-- Modelled from the spec: `_first_term` (from the command module, which is
not among these sources) splits the first whitespace-delimited term off the
argument string and returns the term together with the remainder. -/
def first_term (args : String) : String × String :=
  let l := args.toList
  (String.mk (l.takeWhile (· ≠ ' ')),
   String.mk ((l.dropWhile (· ≠ ' ')).dropWhile (· = ' ')))

/-- Value of a nonempty all-digit string, `none` otherwise. -/
def digitsVal : List Char → Option Nat
  | [] => none
  | l =>
    if l.all Char.isDigit then
      some (l.foldl (fun acc c => acc * 10 + (c.toNat - '0'.toNat)) 0)
    else none

/-- Python's `int(str)`: optional surrounding whitespace, optional sign,
then decimal digits; `none` models the raised `ValueError`. -/
def pyParseInt (s : String) : Option Int :=
  let t := (s.toList.dropWhile Char.isWhitespace).reverse.dropWhile Char.isWhitespace |>.reverse
  match t with
  | '+' :: rest => (digitsVal rest).map Int.ofNat
  | '-' :: rest => (digitsVal rest).map (fun n => -(n : Int))
  | l => (digitsVal l).map Int.ofNat

/-- `Screen.optint`: with no argument return `(True, 0, "")`; otherwise parse
the first term as an integer, reporting `(False, None, None)` when the parse
fails (the `except` branch). -/
def optint (args : String) : Bool × Option Int × Option String :=
  if args = "" then (true, some 0, some "")
  else
    let tr := first_term args
    match pyParseInt tr.1 with
    | some n => (true, some n, some tr.2)
    | none => (false, none, none)

/-! ## The GUI thread (gui.py): tick and one pass of `run_gui`. -/

/-- The shared state the render pass reads and writes: the sync countdown
`sync_timer`, the `do_gui` event, and the three `needs_*` shared variables. -/
structure GuiState where
  sync_timer : Int
  do_gui : Bool
  needs_resize : Bool
  needs_refresh : Bool
  needs_redraw : Bool
deriving DecidableEq, Repr

/-- The externally visible actions of one render pass. -/
inductive GuiAction where
  | sync
  | resize
  | refresh
  | redraw
deriving DecidableEq, Repr

/-- `CantoCursesGui.tick`: decrement the sync countdown; at zero or below,
call `release_gui` (set the `do_gui` event). -/
def tick (s : GuiState) : GuiState :=
  let t := s.sync_timer - 1
  { s with sync_timer := t, do_gui := if t ≤ 0 then true else s.do_gui }

/-- One pass of the `run_gui` loop body (the part under the write lock):
sync when the countdown has run out (resetting it to 5), then resize
(clearing all three `needs_*` flags), then refresh, then redraw.  Returns the
new state together with the ordered list of performed actions. -/
def run_gui_pass (s : GuiState) : GuiState × List GuiAction :=
  let p1 : GuiState × List GuiAction :=
    if s.sync_timer ≤ 0 then ({ s with sync_timer := 5 }, [GuiAction.sync]) else (s, [])
  let p2 : GuiState × List GuiAction :=
    if p1.1.needs_resize then
      ({ p1.1 with needs_resize := false, needs_refresh := false, needs_redraw := false },
       p1.2 ++ [GuiAction.resize])
    else p1
  let p3 : GuiState × List GuiAction :=
    if p2.1.needs_refresh then
      ({ p2.1 with needs_refresh := false }, p2.2 ++ [GuiAction.refresh])
    else p2
  let p4 : GuiState × List GuiAction :=
    if p3.1.needs_redraw then
      ({ p3.1 with needs_redraw := false }, p3.2 ++ [GuiAction.redraw])
    else p3
  p4

/-! ## Geometry engine (screen.py, `Screen._subw` and helpers) -/

/-- `Screen._subw_size_height`: the minimum of the guaranteed slice, the
configured maximum (falling back to the slice when zero/unset), and the
requested size. -/
def subw_size_height (ci : Region) (height : Int) : Int :=
  let cfg_height := if ci.maxheight = 0 then height else ci.maxheight
  min height (min cfg_height (ci.reqHeight height))

/-- `Screen._subw_size_width`. -/
def subw_size_width (ci : Region) (width : Int) : Int :=
  let cfg_width := if ci.maxwidth = 0 then width else ci.maxwidth
  min width (min cfg_width (ci.reqWidth width))

/-- The classification loop of `Screen._subw`: separate the enumerated layout
into immediates (windows) and cmplx (sublists), keeping each index. -/
def classifyAux : Nat → List LNode → List (Nat × Region) × List (Nat × List LNode)
  | _, [] => ([], [])
  | i, LNode.leaf r :: rest =>
    ((i, r) :: (classifyAux (i + 1) rest).1, (classifyAux (i + 1) rest).2)
  | i, LNode.branch l :: rest =>
    ((classifyAux (i + 1) rest).1, (i, l) :: (classifyAux (i + 1) rest).2)

/-- The `for i, unit in immediates` loop of `Screen._subw`: allocate each
immediate `min(max, request, share)` of the shrinking remainder, writing the
result into the sizes array. -/
def allocImm (o : Orient) (height width : Int) :
    List (Nat × Region) → List Int → Int → Int → List Int × Int
  | [], sizes, used, _ => (sizes, used)
  | (i, ci) :: rest, sizes, used, units =>
    let size :=
      match o with
      | Orient.horizontal => subw_size_width ci ((width - used).fdiv units)
      | Orient.vertical => subw_size_height ci ((height - used).fdiv units)
    allocImm o height width rest (sizes.set i size) (used + size) (units - 1)

/-- `Screen._subw_init`: bind `ci` to `curses.newpad(height + 1, width)` at
the given coordinates.  `newpad` fails (raises) unless both of its dimensions
are positive. -/
def subw_init (ci : Region) (top left height width : Int) : Option PNode :=
  if 0 < height + 1 ∧ 0 < width then some (PNode.leaf ci ⟨top, left, height, width⟩)
  else none

/-- Python's `max` over a list of ints; it raises on an empty sequence. -/
def pymax : List Int → Option Int
  | [] => none
  | x :: xs => some (xs.foldl max x)

mutual
/-- Element measure inside `Screen._subw_layout_size`: a placed pad reports
`pad.getmaxyx()[idx] - 1`, where the pad was created with `height + 1` lines
and `width` columns; a sublist is measured recursively. -/
def sizeOfN (dim : Dim) : PNode → Option Int
  | PNode.leaf _ rect =>
    some ((match dim with | Dim.height => rect.height + 1 | Dim.width => rect.width) - 1)
  | PNode.branch l =>
    match sizesOfL dim l with
    | some sizes => pymax sizes
    | none => none

/-- The `sizes` list built by `Screen._subw_layout_size`. -/
def sizesOfL (dim : Dim) : List PNode → Option (List Int)
  | [] => some []
  | x :: xs =>
    match sizeOfN dim x, sizesOfL dim xs with
    | some s, some rest => some (s :: rest)
    | _, _ => none
end

/-- `Screen._subw_layout_size`: the max of the element measures. -/
def subw_layout_size (dim : Dim) (l : List PNode) : Option Int :=
  match sizesOfL dim l with
  | some sizes => pymax sizes
  | none => none

/-- The `for i, unit in cmplx` loop of `Screen._subw`: hand each sublist the
space still guaranteed to it, recurse with flipped orientation, and record the
measured extent of the recursive result as the sublist's consumed size.
`rec` stands for the recursive `_subw` call. -/
def allocCmplx
    (rec : List LNode → Int → Int → Int → Int → Orient → Option (List PNode × List Int))
    (top left height width : Int) (o : Orient) :
    List (Nat × List LNode) → List Int → Int → Int →
    Option (List Int × Int × List (Nat × List PNode))
  | [], sizes, used, _ => some (sizes, used, [])
  | (i, unit) :: rest, sizes, used, units =>
    let offset := (sizes.take i).sum
    match o with
    | Orient.horizontal =>
      let available := (width - used).fdiv units
      match rec unit top (left + offset) height available Orient.vertical with
      | none => none
      | some rp =>
        match subw_layout_size Dim.width rp.1 with
        | none => none
        | some sz =>
          match allocCmplx rec top left height width o rest
              (sizes.set i sz) (used + sz) (units - 1) with
          | none => none
          | some out => some (out.1, out.2.1, (i, rp.1) :: out.2.2)
    | Orient.vertical =>
      let available := (height - used).fdiv units
      match rec unit (top + offset) left available width Orient.horizontal with
      | none => none
      | some rp =>
        match subw_layout_size Dim.height rp.1 with
        | none => none
        | some sz =>
          match allocCmplx rec top left height width o rest
              (sizes.set i sz) (used + sz) (units - 1) with
          | none => none
          | some out => some (out.1, out.2.1, (i, rp.1) :: out.2.2)

/-- The final loop of `Screen._subw`: with all sizes known, place the
immediates via `_subw_init` and interleave the already-placed sublists,
rebuilding the layout in order. -/
def assembleImm (o : Orient) (top left height width : Int) :
    Nat → List LNode → List Int → List (Nat × List PNode) → Option (List PNode)
  | _, [], _, _ => some []
  | i, LNode.leaf r :: rest, sizes, placed =>
    let offset := (sizes.take i).sum
    let pn :=
      match o with
      | Orient.horizontal => subw_init r top (left + offset) height (sizes.getD i 0)
      | Orient.vertical => subw_init r (top + offset) left (sizes.getD i 0) width
    match pn, assembleImm o top left height width (i + 1) rest sizes placed with
    | some p, some tail => some (p :: tail)
    | _, _ => none
  | i, LNode.branch _ :: rest, sizes, placed =>
    match assembleImm o top left height width (i + 1) rest sizes placed with
    | some tail => some (PNode.branch ((placed.lookup i).getD []) :: tail)
    | none => none

/-- Fuel-indexed `Screen._subw`.  The fuel only bounds the nesting depth of
the layout; `subw` below supplies enough fuel for any input, so the fuel never
runs out on the calls the program makes. -/
def subwF : Nat → List LNode → Int → Int → Int → Int → Orient → Option (List PNode × List Int)
  | 0, _, _, _, _, _, _ => none
  | fuel + 1, layout, top, left, height, width, o =>
    let cls := classifyAux 0 layout
    let pa := allocImm o height width cls.1 (List.replicate layout.length 0) 0
      (layout.length : Int)
    match allocCmplx (subwF fuel) top left height width o cls.2 pa.1 pa.2
        ((cls.2.length : Int)) with
    | none => none
    | some pb =>
      match assembleImm o top left height width 0 layout pb.1 pb.2.2 with
      | none => none
      | some out => some (out, pb.1)

mutual
/-- Nesting depth of a layout node. -/
def depthN : LNode → Nat
  | LNode.leaf _ => 0
  | LNode.branch l => depthL l + 1

/-- Nesting depth of a layout list. -/
def depthL : List LNode → Nat
  | [] => 0
  | x :: xs => max (depthN x) (depthL xs)
end

/-- `Screen._subw`: lay the list out into the target rectangle, returning the
placed layout together with the top-level sizes array. -/
def subw (layout : List LNode) (top left height width : Int) (o : Orient) :
    Option (List PNode × List Int) :=
  subwF (depthL layout + 1) layout top left height width o

/-! ## Screen-level layout and focus (screen.py) -/

/-- `Screen.fill_layout`: distribute the tiled windows into the list layout.
"hstack" is one row, "vstack" one column; the default layout buckets windows
by their `align` option, nests the taglist two levels deeper, and combines
left+neutral+right into one horizontal row between top and bottom. -/
def fill_layout (layout : String) (windows : List Region) : List LNode :=
  if layout = "hstack" then windows.map LNode.leaf
  else if layout = "vstack" then [LNode.branch (windows.map LNode.leaf)]
  else
    let bucket : Region → LNode := fun w =>
      if w.rname = "taglist" then LNode.branch [LNode.branch [LNode.leaf w]]
      else LNode.leaf w
    let elems : String → List LNode := fun a =>
      (windows.filter (fun w => w.align = a)).map bucket
    elems "top" ++
      [LNode.branch (elems "left" ++ elems "neutral" ++ elems "right")] ++
      elems "bottom"

/-- Python's `str.startswith`. -/
def pyStartsWith (s p : String) : Bool :=
  s.toList.take p.toList.length == p.toList

/-- Python's `str.endswith`. -/
def pyEndsWith (s p : String) : Bool :=
  s.toList.reverse.take p.toList.length == p.toList.reverse

/-- The float branch of `Screen.subwindows`: size against the full screen with
`_subw_size_height`/`_subw_size_width`, then align top/bottom and left/right. -/
def floatRect (scrHeight scrWidth : Int) (f : Region) : Rect :=
  let height := subw_size_height f scrHeight
  let width := subw_size_width f scrWidth
  let top := if pyStartsWith f.align "bottom" then scrHeight - height else 0
  let left := if pyEndsWith f.align "right" then scrWidth - width else 0
  ⟨top, left, height, width⟩

/-- Place every float (each also goes through `_subw_init`, i.e. `newpad`). -/
def placeFloats (scrHeight scrWidth : Int) : List Region → Option (List Rect)
  | [] => some []
  | f :: rest =>
    let rect := floatRect scrHeight scrWidth f
    if 0 < rect.height + 1 ∧ 0 < rect.width then
      match placeFloats scrHeight scrWidth rest with
      | some tail => some (rect :: tail)
      | none => none
    else none

/-- The Screen state the claims are about: the two window collections, the
screen dimensions, the layout option, the focus pointer, and the geometry the
last `subwindows()` produced. -/
structure ScreenState where
  layout : String
  windows : List Region
  floats : List Region
  height : Int
  width : Int
  focused : Option Region
  tiledGeom : List PNode
  floatGeom : List Rect

/-- Python list indexing `l[idx]` with a possibly negative index. -/
def pyGet (l : List α) (idx : Int) : Option α :=
  if 0 ≤ idx then l.get? idx.toNat else l.get? (l.length - (-idx).toNat)

/-- `Screen._focus`: the focus order is windows then floats, reversed, and the
focus changes only when `-1 * len < idx < len`. -/
def focusS (s : ScreenState) (idx : Int) : ScreenState :=
  if -1 * ((((s.windows ++ s.floats).reverse).length : Int)) < idx ∧
      idx < (((s.windows ++ s.floats).reverse).length : Int) then
    { s with focused := pyGet ((s.windows ++ s.floats).reverse) idx }
  else s

/-- `Screen.subwindows`: drop the focus, regenerate the tiled layout from
scratch, place the floats, and default the focus to window 0. -/
def subwindowsS (s : ScreenState) : Option ScreenState :=
  match subw (fill_layout s.layout s.windows) 0 0 s.height s.width Orient.vertical with
  | none => none
  | some tiled =>
    match placeFloats s.height s.width s.floats with
    | none => none
    | some fg =>
      some (focusS { s with focused := none, tiledGeom := tiled.1, floatGeom := fg } 0)

/-- `Screen.add_window_callback`: classify the new window by its `float`
option, regenerate the layout, focus the new window. -/
def add_window_callback (s : ScreenState) (w : Region) : Option ScreenState :=
  match subwindowsS (if w.flt then { s with floats := s.floats ++ [w] }
      else { s with windows := s.windows ++ [w] }) with
  | none => none
  | some s2 => some (focusS s2 0)

/-- `Screen.die_callback`: drop the window from both collections (Python `!=`
is object identity, modelled through `rid`), regenerate the layout, and reset
the focus if the dead window still held it. -/
def die_callback (s : ScreenState) (w : Region) : Option ScreenState :=
  match subwindowsS { s with
      windows := s.windows.filter (fun x => x.rid ≠ w.rid),
      floats := s.floats.filter (fun x => x.rid ≠ w.rid) } with
  | none => none
  | some s2 =>
    if s2.focused.map Region.rid = some w.rid then some (focusS s2 0) else some s2

/-- `Screen._resize`: tear down curses, re-read the screen dimensions in
`curses_setup`, and regenerate all subwindows. -/
def resizeS (s : ScreenState) (newHeight newWidth : Int) : Option ScreenState :=
  subwindowsS { s with height := newHeight, width := newWidth }

/-! ## Specification-side definitions used to state the claims. -/

/-- The extent of the target rectangle along the active (stacking) axis. -/
def activeExtent (o : Orient) (height width : Int) : Int :=
  match o with
  | Orient.vertical => height
  | Orient.horizontal => width

/-- The immediate (depth-zero) windows of a layout list, in order. -/
def immediateRegions : List LNode → List Region
  | [] => []
  | LNode.leaf r :: rest => r :: immediateRegions rest
  | LNode.branch _ :: rest => immediateRegions rest

/-- The sizes allocated to the immediate leaves of a placed layout, along the
active axis, in order. -/
def immediateExtents (o : Orient) : List PNode → List Int
  | [] => []
  | PNode.leaf _ rect :: rest =>
    (match o with
     | Orient.vertical => rect.height
     | Orient.horizontal => rect.width) :: immediateExtents o rest
  | PNode.branch _ :: rest => immediateExtents o rest

/-- The configured maximum along the active axis. -/
def cfgOf (o : Orient) (r : Region) : Int :=
  match o with
  | Orient.vertical => r.maxheight
  | Orient.horizontal => r.maxwidth

/-- The size request along the active axis, as a function of the offer. -/
def reqOf (o : Orient) (r : Region) (avail : Int) : Int :=
  match o with
  | Orient.vertical => r.reqHeight avail
  | Orient.horizontal => r.reqWidth avail

/-- The allocation the specification words give one immediate leaf:
`min(configured-max, requested-size, computed share)`, where a zero/unset
configured max is unbounded (so it drops out of the minimum). -/
def specSize (o : Orient) (r : Region) (share : Int) : Int :=
  if cfgOf o r = 0 then min (reqOf o r share) share
  else min (cfgOf o r) (min (reqOf o r share) share)

/-- The allocation rule exactly as the specification words it: each immediate
leaf receives `min(configured-max, requested-size, computed share)`, the
computed share being the remaining space divided by the remaining unit count,
and the unit count decreasing by one per allocated immediate. -/
def specImmediateAlloc (o : Orient) : List Region → Int → Int → List Int
  | [], _, _ => []
  | r :: rest, remaining, units =>
    specSize o r (remaining.fdiv units) ::
      specImmediateAlloc o rest (remaining - specSize o r (remaining.fdiv units)) (units - 1)

/-- Index 0 of the focus chain: the topmost, most recently added window. -/
def chainHead (windows floats : List Region) : Option Region :=
  ((windows ++ floats).reverse).head?

/-- The invariant a successful `_subw` call guarantees: the allocated sizes
sum to at most the active extent, every measured height of the result is
between 0 and the target height, and every measured width is between 0 and
the target width minus one (the pad width measure under-reports by one). -/
def SubwGood (height width : Int) (o : Orient) (placed : List PNode) (sizes : List Int) : Prop :=
  sizes.sum ≤ activeExtent o height width ∧
  (∀ m, subw_layout_size Dim.height placed = some m → 0 ≤ m ∧ m ≤ height) ∧
  (∀ m, subw_layout_size Dim.width placed = some m → 0 ≤ m ∧ m ≤ width - 1)

/-! ## Concrete fixtures used by the witnesses below. -/

/-- A plain tiled window fixture. -/
def exReg : Region := ⟨1, "reader", "neutral", false, 0, 0, fun _ => 2, fun _ => 40⟩

/-- A taglist-like window fixture. -/
def exReg2 : Region := ⟨2, "taglist", "neutral", false, 0, 0, fun _ => 50, fun _ => 90⟩

/-- A floating window fixture matching the spec's end-to-end float example. -/
def exFloat : Region := ⟨9, "box", "bottom-right", true, 5, 20, fun _ => 10, fun _ => 30⟩

/-- A screen with a single tiled window. -/
def exS : ScreenState := ⟨"default", [exReg], [], 24, 80, none, [], []⟩

/-- A screen with two tiled windows and one float on 24x80. -/
def exS0 : ScreenState := ⟨"default", [exReg, exReg2], [exFloat], 24, 80, none, [], []⟩

/-- The state after one successful subwindows() pass from `exS0`. -/
def exS1 : ScreenState := (subwindowsS exS0).getD exS0

/-- A concrete mixed layout: one immediate window above a nested column. -/
def exLayout : List LNode := [LNode.leaf exReg, LNode.branch [LNode.leaf exReg2]]

/-- The result of laying `exLayout` out on a 24x80 screen. -/
def exLayoutOut : List PNode × List Int :=
  (subw exLayout 0 0 24 80 Orient.vertical).getD ([], [])

/-- A GUI state with the countdown expired and every flag set. -/
def exGui : GuiState := ⟨0, false, true, true, true⟩

/-- A GUI state with a resize pending and stale refresh/redraw flags. -/
def exGui2 : GuiState := ⟨3, false, true, false, true⟩

end CantoCurses

namespace CantoCurses

/-! ## Claim theorems. -/

/-- C6: command splitting splits the raw input on every unescaped separator
(an ampersand preceded by whitespace) and strips leading whitespace from each
piece: "a & b & c" yields ["a","b","c"], and the escaped "a \& b" yields
["a & b"]. -/
theorem C6_cmdsplit :
    cmdsplit "a & b & c" = ["a", "b", "c"] ∧ cmdsplit "a \\& b" = ["a & b"] := by
  exact ⟨rfl, rfl⟩

/-- C9: the optional-integer parser returns value 0 with success when no
argument is given; when the first term of the argument string does not parse
as an integer it reports failure with a no-value triple instead of raising. -/
theorem C9_optint :
    optint "" = (true, some 0, some "") ∧
    ∀ args : String, args ≠ "" → pyParseInt (first_term args).1 = none →
      optint args = (false, none, none) := by
  refine ⟨rfl, fun args h hp => ?_⟩
  unfold optint
  rw [if_neg h]
  simp only [hp]

/-- Witness for C9 at the concrete malformed argument "abc def". -/
theorem C9_optint_witness : optint "abc def" = (false, none, none) :=
  C9_optint.2 "abc def" (by decide) (by decide)

/-- C3: a render pass performs sync, then resize, then refresh, then redraw in
this strict order and each at most once (its action trace is a subsequence of
that sequence); sync runs exactly when the countdown has run out and resets
the countdown to 5; resize runs exactly when its flag is set, refresh/redraw
exactly when their flags still demand it; and a tick decrements the countdown
by exactly one, sets the release signal once the countdown is at or below
zero, and changes nothing else. -/
theorem C3_render_order (s : GuiState) :
    (run_gui_pass s).2.Sublist
      [GuiAction.sync, GuiAction.resize, GuiAction.refresh, GuiAction.redraw] ∧
    (GuiAction.sync ∈ (run_gui_pass s).2 ↔ s.sync_timer ≤ 0) ∧
    (s.sync_timer ≤ 0 → (run_gui_pass s).1.sync_timer = 5) ∧
    (GuiAction.resize ∈ (run_gui_pass s).2 ↔ s.needs_resize = true) ∧
    (GuiAction.refresh ∈ (run_gui_pass s).2 ↔
      s.needs_resize = false ∧ s.needs_refresh = true) ∧
    (GuiAction.redraw ∈ (run_gui_pass s).2 ↔
      s.needs_resize = false ∧ s.needs_redraw = true) ∧
    (tick s).sync_timer = s.sync_timer - 1 ∧
    (tick s).needs_resize = s.needs_resize ∧
    (tick s).needs_refresh = s.needs_refresh ∧
    (tick s).needs_redraw = s.needs_redraw ∧
    ((tick s).do_gui = true ↔ s.sync_timer - 1 ≤ 0 ∨ s.do_gui = true) := by
  obtain ⟨t, g, rz, rf, rd⟩ := s
  by_cases h : t ≤ 0 <;> cases g <;> cases rz <;> cases rf <;> cases rd <;>
    simp [run_gui_pass, tick, h]

/-- Witness for C3 at the concrete expired-countdown state `exGui`. -/
theorem C3_render_order_witness : (run_gui_pass exGui).1.sync_timer = 5 :=
  (C3_render_order exGui).2.2.1 (by decide)

/-- C4: a pass that finds needs_resize set performs the resize step, ends with
all three needs flags cleared regardless of their prior values, and does not
additionally run the separate refresh or redraw steps in that pass. -/
theorem C4_resize_clears (s : GuiState) (h : s.needs_resize = true) :
    GuiAction.resize ∈ (run_gui_pass s).2 ∧
    (run_gui_pass s).1.needs_resize = false ∧
    (run_gui_pass s).1.needs_refresh = false ∧
    (run_gui_pass s).1.needs_redraw = false ∧
    GuiAction.refresh ∉ (run_gui_pass s).2 ∧
    GuiAction.redraw ∉ (run_gui_pass s).2 := by
  obtain ⟨t, g, rz, rf, rd⟩ := s
  subst h
  by_cases ht : t ≤ 0 <;> cases rf <;> cases rd <;>
    simp [run_gui_pass, ht]

/-- Witness for C4 at the concrete state `exGui2` (resize pending alongside a
stale redraw flag). -/
theorem C4_resize_clears_witness :
    GuiAction.resize ∈ (run_gui_pass exGui2).2 ∧
    (run_gui_pass exGui2).1.needs_redraw = false :=
  ⟨(C4_resize_clears exGui2 (by decide)).1,
   (C4_resize_clears exGui2 (by decide)).2.2.2.1⟩

/-- C7: every float is sized min(configured-max-or-unbounded, requested)
against the full screen in each dimension and positioned by its alignment
keyword; in particular a bottom-right float with maxheight 5, maxwidth 20 and
requests at least that large lands at top=19, left=60, height=5, width=20 on
an 80x24 screen. -/
theorem C7_float (f : Region) (hh : f.maxheight = 5) (hw : f.maxwidth = 20)
    (hrh : 5 ≤ f.reqHeight 24) (hrw : 20 ≤ f.reqWidth 80)
    (ha : f.align = "bottom-right") :
    floatRect 24 80 f = ⟨19, 60, 5, 20⟩ ∧
    ∀ (g : Region) (H W : Int),
      (floatRect H W g).height =
        min H (min (if g.maxheight = 0 then H else g.maxheight) (g.reqHeight H)) ∧
      (floatRect H W g).width =
        min W (min (if g.maxwidth = 0 then W else g.maxwidth) (g.reqWidth W)) ∧
      (floatRect H W g).top =
        (if pyStartsWith g.align "bottom" then H - (floatRect H W g).height else 0) ∧
      (floatRect H W g).left =
        (if pyEndsWith g.align "right" then W - (floatRect H W g).width else 0) := by
  constructor
  · have hs : pyStartsWith f.align "bottom" = true := by rw [ha]; decide
    have he : pyEndsWith f.align "right" = true := by rw [ha]; decide
    simp only [floatRect, subw_size_height, subw_size_width, hh, hw, hs, he,
      if_true, Rect.mk.injEq]
    refine ⟨?_, ?_, ?_, ?_⟩ <;> omega
  · intro g H W
    refine ⟨rfl, rfl, rfl, rfl⟩

/-- Witness for C7 at the concrete float fixture `exFloat`. -/
theorem C7_float_witness : floatRect 24 80 exFloat = ⟨19, 60, 5, 20⟩ :=
  (C7_float exFloat rfl rfl (by decide) (by decide) rfl).1

/-! ## Focus resolution (C2) -/

/-- C2 as stated is false: with a one-window focus chain (L = 1) the claimed
valid range is -L..L-1 = -1..0, yet at idx = -1 the code's strict test
`-1 * l < idx` fails, so the chain element (which Python indexing would
return) is not focused and the previous focus (here none) is kept. -/
theorem C2_counterexample :
    (-(((exS.windows ++ exS.floats).length : Int)) ≤ -1 ∧
      (-1 : Int) ≤ ((exS.windows ++ exS.floats).length : Int) - 1) ∧
    pyGet ((exS.windows ++ exS.floats).reverse) (-1) = some exReg ∧
    (focusS exS (-1)).focused = none :=
  ⟨by decide, rfl, rfl⟩

/-- C2 (amended): with L the focus chain length, the focus operation moves the
focus to the idx-th element of the chain (Python indexing, negative from the
end) exactly when -L < idx < L, that is for -(L-1) ≤ idx ≤ L-1; any other
index, including idx = -L, leaves the state, and so the previously focused
Region, unchanged, and the failure is non-fatal. -/
theorem C2_focus_amended (s : ScreenState) (idx : Int) :
    (-(((s.windows ++ s.floats).length : Int)) < idx ∧
        idx < ((s.windows ++ s.floats).length : Int) →
      ∃ r : Region, pyGet ((s.windows ++ s.floats).reverse) idx = some r ∧
        (focusS s idx).focused = some r) ∧
    (¬(-(((s.windows ++ s.floats).length : Int)) < idx ∧
        idx < ((s.windows ++ s.floats).length : Int)) →
      focusS s idx = s) := by
  have hlen : ((s.windows ++ s.floats).reverse).length = (s.windows ++ s.floats).length :=
    List.length_reverse _
  constructor
  · rintro ⟨h1, h2⟩
    have hcond : -1 * (((s.windows ++ s.floats).reverse).length : Int) < idx ∧
        idx < (((s.windows ++ s.floats).reverse).length : Int) := by
      rw [hlen]; constructor <;> omega
    have hsome : ∃ r : Region,
        pyGet ((s.windows ++ s.floats).reverse) idx = some r := by
      unfold pyGet
      by_cases h0 : 0 ≤ idx
      · rw [if_pos h0]
        have hn : idx.toNat < ((s.windows ++ s.floats).reverse).length := by
          rw [hlen]; omega
        exact ⟨_, List.get?_eq_get hn⟩
      · rw [if_neg h0]
        have hn : ((s.windows ++ s.floats).reverse).length - (-idx).toNat <
            ((s.windows ++ s.floats).reverse).length := by
          rw [hlen]; omega
        exact ⟨_, List.get?_eq_get hn⟩
    obtain ⟨r, hr⟩ := hsome
    refine ⟨r, hr, ?_⟩
    unfold focusS
    rw [if_pos hcond]
    exact hr
  · intro h
    unfold focusS
    rw [if_neg]
    intro hc
    rw [hlen] at hc
    exact h ⟨by omega, hc.2⟩

/-- Witness for C2 (amended) at a concrete in-range index. -/
theorem C2_focus_amended_witness :
    ∃ r : Region, pyGet ((exS.windows ++ exS.floats).reverse) 0 = some r ∧
      (focusS exS 0).focused = some r :=
  (C2_focus_amended exS 0).1 (by decide)

/-! ## Re-layout lemmas (C8, C10) -/

/-- Focusing never changes the window collections or dimensions. -/
theorem focusS_windows (s : ScreenState) (i : Int) : (focusS s i).windows = s.windows := by
  unfold focusS; split <;> rfl

/-- Focusing never changes the float collection. -/
theorem focusS_floats (s : ScreenState) (i : Int) : (focusS s i).floats = s.floats := by
  unfold focusS; split <;> rfl

/-- Focusing never changes the screen height. -/
theorem focusS_height (s : ScreenState) (i : Int) : (focusS s i).height = s.height := by
  unfold focusS; split <;> rfl

/-- Focusing never changes the screen width. -/
theorem focusS_width (s : ScreenState) (i : Int) : (focusS s i).width = s.width := by
  unfold focusS; split <;> rfl

/-- Focusing never changes the layout option. -/
theorem focusS_layout (s : ScreenState) (i : Int) : (focusS s i).layout = s.layout := by
  unfold focusS; split <;> rfl

/-- With a nonempty chain, focusing index 0 selects the chain head (the
topmost, most recently added window). -/
theorem focusS_zero_head (s : ScreenState) (hne : s.windows ++ s.floats ≠ []) :
    (focusS s 0).focused = chainHead s.windows s.floats := by
  have hl : 0 < (s.windows ++ s.floats).length := List.length_pos.mpr hne
  unfold focusS
  rw [if_pos]
  · show pyGet ((s.windows ++ s.floats).reverse) 0 = chainHead s.windows s.floats
    unfold pyGet chainHead
    rw [if_pos (le_refl (0 : Int))]
    exact List.get?_zero _
  · rw [List.length_reverse]
    constructor <;> omega

/-- With an empty chain, focusing index 0 changes nothing. -/
theorem focusS_zero_empty (s : ScreenState) (he : s.windows ++ s.floats = []) :
    focusS s 0 = s := by
  unfold focusS
  rw [if_neg]
  rw [List.length_reverse, he]
  simp

/-- Focusing index 0 from a cleared focus lands on the chain head. -/
theorem focusS_zero_spec (t : ScreenState) (hf : t.focused = none) :
    (focusS t 0).focused = chainHead t.windows t.floats := by
  by_cases hne : t.windows ++ t.floats = []
  · rw [focusS_zero_empty t hne, hf, chainHead, hne]
    rfl
  · exact focusS_zero_head t hne

/-- Focusing index 0 keeps the focus on the chain head if it was there. -/
theorem focusS_zero_keep (t : ScreenState)
    (hf : t.focused = chainHead t.windows t.floats) :
    (focusS t 0).focused = chainHead (focusS t 0).windows (focusS t 0).floats := by
  rw [focusS_windows, focusS_floats]
  by_cases hne : t.windows ++ t.floats = []
  · rw [focusS_zero_empty t hne, hf]
  · exact focusS_zero_head t hne

/-- A successful subwindows() pass only rewrites the focus and the two
geometry fields, and leaves the focus at the head of the rebuilt chain. -/
theorem subwindowsS_spec (s s' : ScreenState) (h : subwindowsS s = some s') :
    s'.windows = s.windows ∧ s'.floats = s.floats ∧ s'.height = s.height ∧
    s'.width = s.width ∧ s'.layout = s.layout ∧
    s'.focused = chainHead s'.windows s'.floats := by
  unfold subwindowsS at h
  cases htiled : subw (fill_layout s.layout s.windows) 0 0 s.height s.width
      Orient.vertical with
  | none => rw [htiled] at h; exact absurd h (by simp)
  | some tiled =>
    rw [htiled] at h
    cases hfg : placeFloats s.height s.width s.floats with
    | none => rw [hfg] at h; exact absurd h (by simp)
    | some fg =>
      rw [hfg] at h
      simp only [Option.some.injEq] at h
      have hw : s'.windows = s.windows := by rw [← h, focusS_windows]
      have hf : s'.floats = s.floats := by rw [← h, focusS_floats]
      refine ⟨hw, hf, by rw [← h, focusS_height], by rw [← h, focusS_width],
        by rw [← h, focusS_layout], ?_⟩
      rw [hw, hf, ← h]
      exact focusS_zero_spec _ rfl

/-- C8: re-layout is idempotent: a successful subwindows() pass from `s`
yielding `s'` runs again from `s'` and reproduces exactly `s'` (the identical
geometry and focus for every Region), because the geometry is recomputed from
the unchanged window set, dimensions and options. -/
theorem C8_relayout_idempotent (s s' : ScreenState) (h : subwindowsS s = some s') :
    subwindowsS s' = some s' := by
  have hspec := subwindowsS_spec s s' h
  obtain ⟨hw, hf, hh, hwd, hl, _⟩ := hspec
  unfold subwindowsS at h ⊢
  cases htiled : subw (fill_layout s.layout s.windows) 0 0 s.height s.width
      Orient.vertical with
  | none => rw [htiled] at h; exact absurd h (by simp)
  | some tiled =>
    rw [htiled] at h
    cases hfg : placeFloats s.height s.width s.floats with
    | none => rw [hfg] at h; exact absurd h (by simp)
    | some fg =>
      rw [hfg] at h
      simp only [Option.some.injEq] at h
      have e1 : subw (fill_layout s'.layout s'.windows) 0 0 s'.height s'.width
          Orient.vertical = some tiled := by
        rw [hl, hw, hh, hwd]; exact htiled
      have e2 : placeFloats s'.height s'.width s'.floats = some fg := by
        rw [hh, hwd, hf]; exact hfg
      rw [e1, e2]
      show
        some (focusS ({ s' with focused := none, tiledGeom := tiled.1, floatGeom := fg }) 0) =
          some s'
      have hM : ({ s' with focused := none, tiledGeom := tiled.1, floatGeom := fg } :
          ScreenState) = { s with focused := none, tiledGeom := tiled.1, floatGeom := fg } := by
        rw [hl, hw, hf, hh, hwd]
      rw [hM]
      exact congrArg some h

/-- Witness for C8: the pass from the concrete screen `exS0` yields `exS1`,
and running it again reproduces `exS1`. -/
theorem C8_relayout_idempotent_witness : subwindowsS exS1 = some exS1 :=
  C8_relayout_idempotent exS0 exS1 (by rfl)

/-- C10: every completed re-layout pass discards the previous focus: after
subwindows() itself, after a window add, after a window removal, and after a
resize, the focused Region is index 0 of the rebuilt focus chain (the topmost,
most recently added window), or null when both window sets are empty. -/
theorem C10_relayout_focus (s s' : ScreenState) (w : Region) (nh nw : Int) :
    (subwindowsS s = some s' → s'.focused = chainHead s'.windows s'.floats) ∧
    (add_window_callback s w = some s' →
      s'.focused = chainHead s'.windows s'.floats) ∧
    (die_callback s w = some s' → s'.focused = chainHead s'.windows s'.floats) ∧
    (resizeS s nh nw = some s' → s'.focused = chainHead s'.windows s'.floats) := by
  have main : ∀ t t' : ScreenState, subwindowsS t = some t' →
      t'.focused = chainHead t'.windows t'.floats := by
    intro t t' ht
    exact (subwindowsS_spec t t' ht).2.2.2.2.2
  have refocus : ∀ t : ScreenState, t.focused = chainHead t.windows t.floats →
      (focusS t 0).focused = chainHead (focusS t 0).windows (focusS t 0).floats :=
    fun t ht => focusS_zero_keep t ht
  refine ⟨main s s', ?_, ?_, ?_⟩
  · intro h
    unfold add_window_callback at h
    cases h2 : subwindowsS (if w.flt then { s with floats := s.floats ++ [w] }
        else { s with windows := s.windows ++ [w] }) with
    | none => rw [h2] at h; exact absurd h (by simp)
    | some s2 =>
      rw [h2] at h
      simp only [Option.some.injEq] at h
      rw [← h]
      exact refocus s2 (main _ s2 h2)
  · intro h
    unfold die_callback at h
    cases h2 : subwindowsS { s with
        windows := s.windows.filter (fun x => x.rid ≠ w.rid),
        floats := s.floats.filter (fun x => x.rid ≠ w.rid) } with
    | none => rw [h2] at h; exact absurd h (by simp)
    | some s2 =>
      simp only [h2] at h
      have h3 := main _ s2 h2
      by_cases hc : s2.focused.map Region.rid = some w.rid
      · rw [if_pos hc] at h
        simp only [Option.some.injEq] at h
        rw [← h]
        exact refocus s2 h3
      · rw [if_neg hc] at h
        simp only [Option.some.injEq] at h
        rw [← h]
        exact h3
  · intro h
    exact main _ s' h

/-- Witness for C10: after the concrete pass from `exS0`, the focus sits on
the head of the rebuilt chain. -/
theorem C10_relayout_focus_witness : exS1.focused = chainHead exS1.windows exS1.floats :=
  (C10_relayout_focus exS0 exS1 exReg 24 80).1 (by rfl)

/-! ## Support lemmas for the geometry claim (C1). -/

/-- Floor division of a nonnegative dividend never exceeds the dividend,
whatever the divisor (Python's `(space) / units`). -/
theorem fdiv_le_self_of_nonneg (a b : Int) (ha : 0 ≤ a) : a.fdiv b ≤ a := by
  rcases lt_trichotomy b 0 with hb | hb | hb
  · exact le_trans (Int.fdiv_nonpos ha (le_of_lt hb)) ha
  · rw [hb, Int.fdiv_zero]
    exact ha
  · rw [Int.fdiv_eq_ediv _ (le_of_lt hb)]
    exact Int.ediv_le_self b ha

/-- Entries of the all-zero sizes array. -/
theorem getD_replicate_zero (n j : Nat) : (List.replicate n (0 : Int)).getD j 0 = 0 := by
  simp only [List.getD_eq_getElem?_getD, List.getElem?_replicate]
  split <;> simp

/-- Sum of the all-zero sizes array. -/
theorem sum_replicate_zero (n : Nat) : (List.replicate n (0 : Int)).sum = 0 := by
  simp

/-- Writing a size over a still-zero entry adds it to the array sum. -/
theorem sum_set_zero (l : List Int) (n : Nat) (a : Int) (hn : n < l.length)
    (h0 : l.getD n 0 = 0) : (l.set n a).sum = l.sum + a := by
  have hs := List.sum_set l n a
  have hd : List.drop n l = l[n] :: List.drop (n + 1) l := List.drop_eq_getElem_cons hn
  have hl : l.sum = (List.take n l).sum + (List.drop n l).sum :=
    (List.sum_take_add_sum_drop l n).symm
  have hget : l[n] = 0 := by
    rw [← h0, List.getD_eq_getElem l 0 hn]
  rw [hs, if_pos hn, hl, hd, List.sum_cons, hget]
  ring

/-- Reading back the entry just written. -/
theorem getD_set_self (l : List Int) (n : Nat) (a : Int) (hn : n < l.length) :
    (l.set n a).getD n 0 = a := by
  simp [List.getD_eq_getElem?_getD, List.getElem?_set, hn]

/-- Writing one entry leaves the others alone. -/
theorem getD_set_ne (l : List Int) (m n : Nat) (a : Int) (h : m ≠ n) :
    (l.set m a).getD n 0 = l.getD n 0 := by
  simp [List.getD_eq_getElem?_getD, List.getElem?_set_ne h]

/-- A successful association lookup is a membership. -/
theorem lookup_mem {β : Type} (l : List (Nat × β)) (k : Nat) (v : β)
    (h : List.lookup k l = some v) : (k, v) ∈ l := by
  induction l with
  | nil => exact absurd h (by simp [List.lookup])
  | cons p rest ih =>
    obtain ⟨a, b⟩ := p
    rw [List.lookup_cons] at h
    cases hk : (k == a) with
    | true =>
      simp only [hk] at h
      cases h
      have hka : k = a := beq_iff_eq.mp hk
      subst hka
      exact List.mem_cons_self _ _
    | false =>
      simp only [hk] at h
      exact List.mem_cons_of_mem _ (ih h)

/-- Properties of the folded maximum behind `pymax`. -/
theorem foldl_max_spec (x : Int) (xs : List Int) :
    x ≤ xs.foldl max x ∧ (∀ y ∈ xs, y ≤ xs.foldl max x) ∧
    (xs.foldl max x = x ∨ xs.foldl max x ∈ xs) := by
  induction xs generalizing x with
  | nil => exact ⟨le_refl x, by simp, Or.inl rfl⟩
  | cons y ys ih =>
    obtain ⟨h1, h2, h3⟩ := ih (max x y)
    refine ⟨le_trans (le_max_left x y) h1, ?_, ?_⟩
    · intro z hz
      rcases List.mem_cons.mp hz with hz | hz
      · subst hz
        exact le_trans (le_max_right x z) h1
      · exact h2 z hz
    · rcases h3 with h3 | h3
      · rcases max_choice x y with hc | hc
        · exact Or.inl (by rw [List.foldl_cons, h3, hc])
        · exact Or.inr (by rw [List.foldl_cons, h3, hc]; exact List.mem_cons_self y ys)
      · exact Or.inr (List.mem_cons_of_mem y h3)

/-- Python's `max` returns a member that dominates every element. -/
theorem pymax_spec (l : List Int) (m : Int) (h : pymax l = some m) :
    m ∈ l ∧ ∀ x ∈ l, x ≤ m := by
  cases l with
  | nil => exact absurd h (by simp [pymax])
  | cons x xs =>
    have hm : m = xs.foldl max x := by
      have := h
      unfold pymax at this
      exact (Option.some.injEq _ _ ▸ this.symm)
    obtain ⟨h1, h2, h3⟩ := foldl_max_spec x xs
    subst hm
    refine ⟨?_, ?_⟩
    · rcases h3 with h3 | h3
      · rw [h3]; exact List.mem_cons_self x xs
      · exact List.mem_cons_of_mem x h3
    · intro y hy
      rcases List.mem_cons.mp hy with hy | hy
      · rw [hy]; exact h1
      · exact h2 y hy

/-- Indices produced by the classification loop lie in [i, i + length). -/
theorem classify_bounds (i : Nat) (l : List LNode) :
    (∀ p ∈ (classifyAux i l).1, i ≤ p.1 ∧ p.1 < i + l.length) ∧
    (∀ p ∈ (classifyAux i l).2, i ≤ p.1 ∧ p.1 < i + l.length) := by
  induction l generalizing i with
  | nil => simp [classifyAux]
  | cons x rest ih =>
    cases x with
    | leaf r =>
      rw [classifyAux]
      constructor
      · intro p hp
        rcases List.mem_cons.mp hp with hp | hp
        · subst hp
          simp only [List.length_cons]
          omega
        · have := (ih (i + 1)).1 p hp
          simp only [List.length_cons]
          omega
      · intro p hp
        have := (ih (i + 1)).2 p hp
        simp only [List.length_cons]
        omega
    | branch c =>
      rw [classifyAux]
      constructor
      · intro p hp
        have := (ih (i + 1)).1 p hp
        simp only [List.length_cons]
        omega
      · intro p hp
        rcases List.mem_cons.mp hp with hp | hp
        · subst hp
          simp only [List.length_cons]
          omega
        · have := (ih (i + 1)).2 p hp
          simp only [List.length_cons]
          omega

/-- The classified index lists are strictly increasing. -/
theorem classify_sorted (i : Nat) (l : List LNode) :
    List.Pairwise (fun a b => a.1 < b.1) (classifyAux i l).1 ∧
    List.Pairwise (fun a b => a.1 < b.1) (classifyAux i l).2 := by
  induction l generalizing i with
  | nil => simp [classifyAux]
  | cons x rest ih =>
    cases x with
    | leaf r =>
      rw [classifyAux]
      refine ⟨List.pairwise_cons.mpr ⟨?_, (ih (i + 1)).1⟩, (ih (i + 1)).2⟩
      intro p hp
      have := (classify_bounds (i + 1) rest).1 p hp
      omega
    | branch c =>
      rw [classifyAux]
      refine ⟨(ih (i + 1)).1, List.pairwise_cons.mpr ⟨?_, (ih (i + 1)).2⟩⟩
      intro p hp
      have := (classify_bounds (i + 1) rest).2 p hp
      omega

/-- An index is never classified both as an immediate and as a sublist. -/
theorem classify_disjoint (i : Nat) (l : List LNode) :
    ∀ p ∈ (classifyAux i l).1, ∀ q ∈ (classifyAux i l).2, p.1 ≠ q.1 := by
  induction l generalizing i with
  | nil => simp [classifyAux]
  | cons x rest ih =>
    cases x with
    | leaf r =>
      rw [classifyAux]
      intro p hp q hq
      rcases List.mem_cons.mp hp with hp | hp
      · subst hp
        have := (classify_bounds (i + 1) rest).2 q hq
        omega
      · exact ih (i + 1) p hp q hq
    | branch c =>
      rw [classifyAux]
      intro p hp q hq
      rcases List.mem_cons.mp hq with hq | hq
      · subst hq
        have := (classify_bounds (i + 1) rest).1 p hp
        omega
      · exact ih (i + 1) p hp q hq

/-- Every index in range is classified one way or the other. -/
theorem classify_partition (i : Nat) (l : List LNode) :
    ∀ j, i ≤ j → j < i + l.length →
      (∃ r, (j, r) ∈ (classifyAux i l).1) ∨ (∃ c, (j, c) ∈ (classifyAux i l).2) := by
  induction l generalizing i with
  | nil =>
    intro j h1 h2
    simp only [List.length_nil] at h2
    omega
  | cons x rest ih =>
    intro j h1 h2
    simp only [List.length_cons] at h2
    cases x with
    | leaf r =>
      rw [classifyAux]
      by_cases hj : j = i
      · subst hj
        exact Or.inl ⟨r, List.mem_cons_self _ _⟩
      · rcases ih (i + 1) j (by omega) (by omega) with ⟨r', hr⟩ | ⟨c', hc⟩
        · exact Or.inl ⟨r', List.mem_cons_of_mem _ hr⟩
        · exact Or.inr ⟨c', hc⟩
    | branch c =>
      rw [classifyAux]
      by_cases hj : j = i
      · subst hj
        exact Or.inr ⟨c, List.mem_cons_self _ _⟩
      · rcases ih (i + 1) j (by omega) (by omega) with ⟨r', hr⟩ | ⟨c', hc⟩
        · exact Or.inl ⟨r', hr⟩
        · exact Or.inr ⟨c', List.mem_cons_of_mem _ hc⟩

/-- Classification preserves the element count. -/
theorem classify_length (i : Nat) (l : List LNode) :
    (classifyAux i l).1.length + (classifyAux i l).2.length = l.length := by
  induction l generalizing i with
  | nil => simp [classifyAux]
  | cons x rest ih =>
    cases x with
    | leaf r =>
      rw [classifyAux]
      simp only [List.length_cons]
      have := ih (i + 1)
      omega
    | branch c =>
      rw [classifyAux]
      simp only [List.length_cons]
      have := ih (i + 1)
      omega

/-- The classified immediates are the immediate regions, in order. -/
theorem classify_regions (i : Nat) (l : List LNode) :
    (classifyAux i l).1.map Prod.snd = immediateRegions l := by
  induction l generalizing i with
  | nil => simp [classifyAux, immediateRegions]
  | cons x rest ih =>
    cases x with
    | leaf r =>
      rw [classifyAux, immediateRegions, List.map_cons]
      rw [ih (i + 1)]
    | branch c =>
      rw [classifyAux, immediateRegions]
      exact ih (i + 1)

/-- The specified allocation never exceeds the computed share. -/
theorem specSize_le_share (o : Orient) (r : Region) (share : Int) :
    specSize o r share ≤ share := by
  unfold specSize
  split <;> omega

/-- If every allocation of the specified immediate-allocation sequence is
nonnegative, the sequence consumes at most the remaining space and no single
allocation exceeds it. -/
theorem specAlloc_bound (o : Orient) :
    ∀ (regs : List Region) (rem units : Int), 0 ≤ rem →
    ((regs.length : Int)) ≤ units →
    (∀ v ∈ specImmediateAlloc o regs rem units, 0 ≤ v) →
    (specImmediateAlloc o regs rem units).sum ≤ rem ∧
    (∀ v ∈ specImmediateAlloc o regs rem units, v ≤ rem) := by
  intro regs
  induction regs with
  | nil =>
    intro rem units hrem _ _
    simp only [specImmediateAlloc, List.sum_nil]
    exact ⟨hrem, by simp⟩
  | cons r rest ih =>
    intro rem units hrem hu hnn
    rw [specImmediateAlloc] at hnn ⊢
    have hshare : rem.fdiv units ≤ rem := fdiv_le_self_of_nonneg rem units hrem
    have hsize : specSize o r (rem.fdiv units) ≤ rem.fdiv units := specSize_le_share o r _
    have h0 : 0 ≤ specSize o r (rem.fdiv units) := hnn _ (List.mem_cons_self _ _)
    have hrem' : 0 ≤ rem - specSize o r (rem.fdiv units) := by omega
    have hu' : ((rest.length : Int)) ≤ units - 1 := by
      simp only [List.length_cons] at hu
      push_cast at hu ⊢
      omega
    have hnn' : ∀ v ∈ specImmediateAlloc o rest
        (rem - specSize o r (rem.fdiv units)) (units - 1), 0 ≤ v :=
      fun v hv => hnn v (List.mem_cons_of_mem _ hv)
    obtain ⟨ihsum, ihv⟩ := ih _ (units - 1) hrem' hu' hnn'
    constructor
    · rw [List.sum_cons]
      omega
    · intro v hv
      rcases List.mem_cons.mp hv with hv | hv
      · subst hv
        omega
      · have := ihv v hv
        omega

/-- The size `_subw` computes for one immediate equals the specification's
min-of-three formula at the same share. -/
theorem allocImm_size_eq (o : Orient) (ci : Region) (hgt wid used units : Int) :
    (match o with
     | Orient.horizontal => subw_size_width ci ((wid - used).fdiv units)
     | Orient.vertical => subw_size_height ci ((hgt - used).fdiv units)) =
    specSize o ci ((activeExtent o hgt wid - used).fdiv units) := by
  cases o with
  | horizontal =>
    show subw_size_width ci ((wid - used).fdiv units) = _
    simp only [subw_size_width, specSize, cfgOf, reqOf, activeExtent]
    by_cases hc : ci.maxwidth = 0
    · rw [if_pos hc, if_pos hc]
      omega
    · rw [if_neg hc, if_neg hc]
      omega
  | vertical =>
    show subw_size_height ci ((hgt - used).fdiv units) = _
    simp only [subw_size_height, specSize, cfgOf, reqOf, activeExtent]
    by_cases hc : ci.maxheight = 0
    · rw [if_pos hc, if_pos hc]
      omega
    · rw [if_neg hc, if_neg hc]
      omega

/-- Full characterization of the immediates loop: the sizes array keeps its
length, entries at other indices are untouched, the entries written at the
pending indices are exactly the specification's allocation sequence, and both
`used` and the array sum grow by that sequence's total. -/
theorem allocImm_spec (o : Orient) (hgt wid : Int) :
    ∀ (pending : List (Nat × Region)) (sizes : List Int) (used units : Int),
    List.Pairwise (fun a b => a.1 < b.1) pending →
    (∀ p ∈ pending, p.1 < sizes.length) →
    (∀ p ∈ pending, sizes.getD p.1 0 = 0) →
    (allocImm o hgt wid pending sizes used units).1.length = sizes.length ∧
    (∀ j, (∀ p ∈ pending, p.1 ≠ j) →
      (allocImm o hgt wid pending sizes used units).1.getD j 0 = sizes.getD j 0) ∧
    pending.map (fun p => (allocImm o hgt wid pending sizes used units).1.getD p.1 0) =
      specImmediateAlloc o (pending.map Prod.snd) (activeExtent o hgt wid - used) units ∧
    (allocImm o hgt wid pending sizes used units).2 =
      used + (specImmediateAlloc o (pending.map Prod.snd)
        (activeExtent o hgt wid - used) units).sum ∧
    (allocImm o hgt wid pending sizes used units).1.sum =
      sizes.sum + (specImmediateAlloc o (pending.map Prod.snd)
        (activeExtent o hgt wid - used) units).sum := by
  intro pending
  induction pending with
  | nil =>
    intro sizes used units _ _ _
    simp [allocImm, specImmediateAlloc]
  | cons p rest ih =>
    obtain ⟨i, ci⟩ := p
    intro sizes used units hd hb hz
    obtain ⟨hlt, hd'⟩ := List.pairwise_cons.mp hd
    have hbi : i < sizes.length := hb _ (List.mem_cons_self _ _)
    have hzi : sizes.getD i 0 = 0 := hz _ (List.mem_cons_self _ _)
    have heq := allocImm_size_eq o ci hgt wid used units
    simp only [allocImm]
    generalize hSZ : (match o with
     | Orient.horizontal => subw_size_width ci ((wid - used).fdiv units)
     | Orient.vertical => subw_size_height ci ((hgt - used).fdiv units)) = SZ
    rw [hSZ] at heq
    have hb' : ∀ q ∈ rest, q.1 < (sizes.set i SZ).length := by
      intro q hq
      rw [List.length_set]
      exact hb q (List.mem_cons_of_mem _ hq)
    have hz' : ∀ q ∈ rest, (sizes.set i SZ).getD q.1 0 = 0 := by
      intro q hq
      rw [getD_set_ne sizes i q.1 SZ (by have := hlt q hq; omega)]
      exact hz q (List.mem_cons_of_mem _ hq)
    obtain ⟨ih1, ih2, ih3, ih4, ih5⟩ := ih (sizes.set i SZ) (used + SZ) (units - 1) hd' hb' hz'
    have hrem : activeExtent o hgt wid - used - specSize o ci
        ((activeExtent o hgt wid - used).fdiv units) =
        activeExtent o hgt wid - (used + SZ) := by
      rw [← heq]
      ring
    have hhead : (allocImm o hgt wid rest (sizes.set i SZ) (used + SZ) (units - 1)).1.getD i 0
        = SZ := by
      rw [ih2 i (by intro q hq; have := hlt q hq; omega),
        getD_set_self sizes i SZ hbi]
    refine ⟨?_, ?_, ?_, ?_, ?_⟩
    · rw [ih1, List.length_set]
    · intro j hj
      rw [ih2 j (fun q hq => hj q (List.mem_cons_of_mem _ hq)),
        getD_set_ne sizes i j SZ (hj _ (List.mem_cons_self _ _))]
    · simp only [List.map_cons, specImmediateAlloc]
      rw [hhead, ih3, hrem, heq]
    · simp only [List.map_cons, specImmediateAlloc, List.sum_cons]
      rw [ih4, hrem, heq]
      ring
    · simp only [List.map_cons, specImmediateAlloc, List.sum_cons]
      rw [ih5, sum_set_zero sizes i SZ hbi hzi, hrem, heq]
      ring

/-- Full characterization of the sublist loop: sizes-array bookkeeping, the
running-total invariant `0 ≤ used ≤ extent`, per-entry bounds, and measure
bounds for every placed sublist, all under the inductive guarantee `hrec` for
the recursive layout call. -/
theorem allocCmplx_spec
    (rec : List LNode → Int → Int → Int → Int → Orient → Option (List PNode × List Int))
    (top left hgt wid : Int) (o : Orient)
    (hrec : ∀ sub t' l' h' w' o' pl sz, 0 ≤ h' → 0 ≤ w' →
      rec sub t' l' h' w' o' = some (pl, sz) → SubwGood h' w' o' pl sz)
    (hh : 0 ≤ hgt) (hw : 0 ≤ wid) :
    ∀ (pending : List (Nat × List LNode)) (sizes : List Int) (used units : Int)
      (sizes2 : List Int) (used2 : Int) (placed : List (Nat × List PNode)),
    List.Pairwise (fun a b => a.1 < b.1) pending →
    (∀ p ∈ pending, p.1 < sizes.length) →
    (∀ p ∈ pending, sizes.getD p.1 0 = 0) →
    ((pending.length : Int)) ≤ units →
    0 ≤ used → used ≤ activeExtent o hgt wid →
    allocCmplx rec top left hgt wid o pending sizes used units =
      some (sizes2, used2, placed) →
    sizes2.length = sizes.length ∧
    (∀ j, (∀ p ∈ pending, p.1 ≠ j) → sizes2.getD j 0 = sizes.getD j 0) ∧
    0 ≤ used2 ∧ used2 ≤ activeExtent o hgt wid ∧
    sizes2.sum = sizes.sum + (used2 - used) ∧
    (∀ p ∈ pending, 0 ≤ sizes2.getD p.1 0 ∧
      sizes2.getD p.1 0 ≤ activeExtent o hgt wid) ∧
    (∀ q ∈ placed,
      (∀ m, subw_layout_size Dim.height q.2 = some m → 0 ≤ m ∧ m ≤ hgt) ∧
      (∀ m, subw_layout_size Dim.width q.2 = some m → 0 ≤ m ∧ m ≤ wid - 1)) := by
  intro pending
  induction pending with
  | nil =>
    intro sizes used units sizes2 used2 placed _ _ _ _ hu0 huE h
    rw [allocCmplx] at h
    simp only [Option.some.injEq, Prod.mk.injEq] at h
    obtain ⟨h1, h2, h3⟩ := h
    subst h1; subst h2; subst h3
    refine ⟨rfl, fun j _ => rfl, hu0, huE, by ring, by simp, by simp⟩
  | cons p rest ih =>
    obtain ⟨i, unit⟩ := p
    intro sizes used units sizes2 used2 placed hd hb hz hu hu0 huE h
    obtain ⟨hlt, hd'⟩ := List.pairwise_cons.mp hd
    have hbi : i < sizes.length := hb _ (List.mem_cons_self _ _)
    have hunits : (1 : Int) ≤ units := by
      simp only [List.length_cons] at hu
      push_cast at hu
      omega
    have hu' : ((rest.length : Int)) ≤ units - 1 := by
      simp only [List.length_cons] at hu
      push_cast at hu ⊢
      omega
    cases o with
    | horizontal =>
      have hEused : used ≤ wid := huE
      simp only [allocCmplx] at h
      cases hr : rec unit top (left + (List.take i sizes).sum) hgt
          ((wid - used).fdiv units) Orient.vertical with
      | none => rw [hr] at h; exact absurd h (by simp)
      | some rp =>
        simp only [hr] at h
        cases hm : subw_layout_size Dim.width rp.1 with
        | none => simp only [hr, hm] at h; exact absurd h (by simp)
        | some sz =>
          simp only [hm] at h
          cases ha : allocCmplx rec top left hgt wid Orient.horizontal rest
              (sizes.set i sz) (used + sz) (units - 1) with
          | none => simp only [ha] at h; exact absurd h (by simp)
          | some out =>
            simp only [ha, Option.some.injEq, Prod.mk.injEq] at h
            obtain ⟨h1, h2, h3⟩ := h
            have havail0 : 0 ≤ (wid - used).fdiv units :=
              Int.fdiv_nonneg (by omega) (by omega)
            have havail : (wid - used).fdiv units ≤ wid - used :=
              fdiv_le_self_of_nonneg _ _ (by omega)
            have hSG := hrec unit top (left + (List.take i sizes).sum) hgt
              ((wid - used).fdiv units) Orient.vertical rp.1 rp.2 hh havail0 hr
            obtain ⟨hsz0, hszB⟩ := hSG.2.2 sz hm
            have hszE : sz ≤ wid := by omega
            have hb' : ∀ q ∈ rest, q.1 < (sizes.set i sz).length := by
              intro q hq
              rw [List.length_set]
              exact hb q (List.mem_cons_of_mem _ hq)
            have hz' : ∀ q ∈ rest, (sizes.set i sz).getD q.1 0 = 0 := by
              intro q hq
              rw [getD_set_ne sizes i q.1 sz (by have := hlt q hq; omega)]
              exact hz q (List.mem_cons_of_mem _ hq)
            obtain ⟨ih1, ih2, ih3, ih4, ih5, ih6, ih7⟩ := ih (sizes.set i sz)
              (used + sz) (units - 1) out.1 out.2.1 out.2.2 hd' hb' hz' hu'
              (by omega) (by show used + sz ≤ wid; omega) (by rw [ha])
            subst h1; subst h2
            refine ⟨?_, ?_, ih3, ih4, ?_, ?_, ?_⟩
            · rw [ih1, List.length_set]
            · intro j hj
              rw [ih2 j (fun q hq => hj q (List.mem_cons_of_mem _ hq)),
                getD_set_ne sizes i j sz (hj _ (List.mem_cons_self _ _))]
            · rw [ih5, sum_set_zero sizes i sz hbi (hz _ (List.mem_cons_self _ _))]
              ring
            · intro q hq
              rcases List.mem_cons.mp hq with hq | hq
              · subst hq
                have hent : out.1.getD i 0 = sz := by
                  rw [ih2 i (by intro q hq; have := hlt q hq; omega),
                    getD_set_self sizes i sz hbi]
                rw [hent]
                exact ⟨hsz0, hszE⟩
              · exact ih6 q hq
            · intro q hq
              rw [← h3] at hq
              rcases List.mem_cons.mp hq with hq | hq
              · subst hq
                refine ⟨fun m hm2 => ?_, fun m hm2 => ?_⟩
                · exact hSG.2.1 m hm2
                · have := hSG.2.2 m hm2
                  constructor
                  · exact this.1
                  · omega
              · exact ih7 q hq
    | vertical =>
      have hEused : used ≤ hgt := huE
      simp only [allocCmplx] at h
      cases hr : rec unit (top + (List.take i sizes).sum) left
          ((hgt - used).fdiv units) wid Orient.horizontal with
      | none => rw [hr] at h; exact absurd h (by simp)
      | some rp =>
        simp only [hr] at h
        cases hm : subw_layout_size Dim.height rp.1 with
        | none => simp only [hr, hm] at h; exact absurd h (by simp)
        | some sz =>
          simp only [hm] at h
          cases ha : allocCmplx rec top left hgt wid Orient.vertical rest
              (sizes.set i sz) (used + sz) (units - 1) with
          | none => simp only [ha] at h; exact absurd h (by simp)
          | some out =>
            simp only [ha, Option.some.injEq, Prod.mk.injEq] at h
            obtain ⟨h1, h2, h3⟩ := h
            have havail0 : 0 ≤ (hgt - used).fdiv units :=
              Int.fdiv_nonneg (by omega) (by omega)
            have havail : (hgt - used).fdiv units ≤ hgt - used :=
              fdiv_le_self_of_nonneg _ _ (by omega)
            have hSG := hrec unit (top + (List.take i sizes).sum) left
              ((hgt - used).fdiv units) wid Orient.horizontal rp.1 rp.2 havail0 hw hr
            obtain ⟨hsz0, hszB⟩ := hSG.2.1 sz hm
            have hszE : sz ≤ hgt := by omega
            have hb' : ∀ q ∈ rest, q.1 < (sizes.set i sz).length := by
              intro q hq
              rw [List.length_set]
              exact hb q (List.mem_cons_of_mem _ hq)
            have hz' : ∀ q ∈ rest, (sizes.set i sz).getD q.1 0 = 0 := by
              intro q hq
              rw [getD_set_ne sizes i q.1 sz (by have := hlt q hq; omega)]
              exact hz q (List.mem_cons_of_mem _ hq)
            obtain ⟨ih1, ih2, ih3, ih4, ih5, ih6, ih7⟩ := ih (sizes.set i sz)
              (used + sz) (units - 1) out.1 out.2.1 out.2.2 hd' hb' hz' hu'
              (by omega) (by show used + sz ≤ hgt; omega) (by rw [ha])
            subst h1; subst h2
            refine ⟨?_, ?_, ih3, ih4, ?_, ?_, ?_⟩
            · rw [ih1, List.length_set]
            · intro j hj
              rw [ih2 j (fun q hq => hj q (List.mem_cons_of_mem _ hq)),
                getD_set_ne sizes i j sz (hj _ (List.mem_cons_self _ _))]
            · rw [ih5, sum_set_zero sizes i sz hbi (hz _ (List.mem_cons_self _ _))]
              ring
            · intro q hq
              rcases List.mem_cons.mp hq with hq | hq
              · subst hq
                have hent : out.1.getD i 0 = sz := by
                  rw [ih2 i (by intro q hq; have := hlt q hq; omega),
                    getD_set_self sizes i sz hbi]
                rw [hent]
                exact ⟨hsz0, hszE⟩
              · exact ih6 q hq
            · intro q hq
              rw [← h3] at hq
              rcases List.mem_cons.mp hq with hq | hq
              · subst hq
                refine ⟨fun m hm2 => ?_, fun m hm2 => ?_⟩
                · have := hSG.2.1 m hm2
                  constructor
                  · exact this.1
                  · omega
                · exact hSG.2.2 m hm2
              · exact ih7 q hq

/-- Measuring a placed sublist node is measuring its children list. -/
theorem sizeOfN_branch (d : Dim) (l : List PNode) :
    sizeOfN d (PNode.branch l) = subw_layout_size d l := by
  rw [sizeOfN, subw_layout_size]

/-- Full characterization of the placement loop: the immediate extents are
the sizes-array entries at the classified immediate indices, every classified
immediate's entry passed the pad check (so is nonnegative), and every element
of the result measures within the target rectangle, given measure bounds for
the already-placed sublists and entry bounds at the immediate indices. -/
theorem assembleImm_spec (o : Orient) (top left hgt wid : Int) :
    ∀ (layout : List LNode) (i0 : Nat) (sizes : List Int)
      (placed : List (Nat × List PNode)) (out : List PNode),
    assembleImm o top left hgt wid i0 layout sizes placed = some out →
    (∀ q ∈ placed,
      (∀ m, subw_layout_size Dim.height q.2 = some m → 0 ≤ m ∧ m ≤ hgt) ∧
      (∀ m, subw_layout_size Dim.width q.2 = some m → 0 ≤ m ∧ m ≤ wid - 1)) →
    (∀ p ∈ (classifyAux i0 layout).1, sizes.getD p.1 0 ≤ activeExtent o hgt wid) →
    0 ≤ hgt →
    immediateExtents o out = (classifyAux i0 layout).1.map (fun p => sizes.getD p.1 0) ∧
    (∀ p ∈ (classifyAux i0 layout).1, 0 ≤ sizes.getD p.1 0) ∧
    (∀ n ∈ out,
      (∀ m, sizeOfN Dim.height n = some m → 0 ≤ m ∧ m ≤ hgt) ∧
      (∀ m, sizeOfN Dim.width n = some m → 0 ≤ m ∧ m ≤ wid - 1)) := by
  intro layout
  induction layout with
  | nil =>
    intro i0 sizes placed out h hplaced hbound hh
    rw [assembleImm] at h
    cases h
    refine ⟨by simp [immediateExtents, classifyAux], by simp [classifyAux], by simp⟩
  | cons x rest ih =>
    intro i0 sizes placed out h hplaced hbound hh
    cases x with
    | leaf r =>
      simp only [assembleImm] at h
      have hboundtail : ∀ p ∈ (classifyAux (i0 + 1) rest).1,
          sizes.getD p.1 0 ≤ activeExtent o hgt wid := by
        intro p hp
        refine hbound p ?_
        rw [classifyAux]
        exact List.mem_cons_of_mem _ hp
      have hboundhead : sizes.getD i0 0 ≤ activeExtent o hgt wid := by
        refine hbound (i0, r) ?_
        rw [classifyAux]
        exact List.mem_cons_self _ _
      cases o with
      | vertical =>
        cases hpn : subw_init r (top + (List.take i0 sizes).sum) left
            (sizes.getD i0 0) wid with
        | none => simp only [hpn] at h; exact absurd h (by simp)
        | some p =>
          cases hta : assembleImm Orient.vertical top left hgt wid (i0 + 1)
              rest sizes placed with
          | none => simp only [hpn, hta] at h; exact absurd h (by simp)
          | some tail =>
            simp only [hpn, hta, Option.some.injEq] at h
            subst h
            rw [subw_init] at hpn
            by_cases hc : 0 < sizes.getD i0 0 + 1 ∧ 0 < wid
            · rw [if_pos hc, Option.some.injEq] at hpn
              subst hpn
              obtain ⟨ih1, ih2, ih3⟩ := ih (i0 + 1) sizes placed tail hta hplaced
                hboundtail hh
              refine ⟨?_, ?_, ?_⟩
              · rw [immediateExtents, classifyAux, List.map_cons, ih1]
              · intro q hq
                rw [classifyAux] at hq
                rcases List.mem_cons.mp hq with hq | hq
                · subst hq
                  show 0 ≤ sizes.getD i0 0
                  omega
                · exact ih2 q hq
              · intro n hn
                rcases List.mem_cons.mp hn with hn | hn
                · subst hn
                  have hA : sizes.getD i0 0 ≤ hgt := hboundhead
                  refine ⟨fun m hm => ?_, fun m hm => ?_⟩
                  · simp only [sizeOfN, Option.some.injEq] at hm
                    subst hm
                    constructor <;> omega
                  · simp only [sizeOfN, Option.some.injEq] at hm
                    subst hm
                    constructor <;> omega
                · exact ih3 n hn
            · rw [if_neg hc] at hpn
              exact absurd hpn (by simp)
      | horizontal =>
        cases hpn : subw_init r top (left + (List.take i0 sizes).sum) hgt
            (sizes.getD i0 0) with
        | none => simp only [hpn] at h; exact absurd h (by simp)
        | some p =>
          cases hta : assembleImm Orient.horizontal top left hgt wid (i0 + 1)
              rest sizes placed with
          | none => simp only [hpn, hta] at h; exact absurd h (by simp)
          | some tail =>
            simp only [hpn, hta, Option.some.injEq] at h
            subst h
            rw [subw_init] at hpn
            by_cases hc : 0 < hgt + 1 ∧ 0 < sizes.getD i0 0
            · rw [if_pos hc, Option.some.injEq] at hpn
              subst hpn
              obtain ⟨ih1, ih2, ih3⟩ := ih (i0 + 1) sizes placed tail hta hplaced
                hboundtail hh
              refine ⟨?_, ?_, ?_⟩
              · rw [immediateExtents, classifyAux, List.map_cons, ih1]
              · intro q hq
                rw [classifyAux] at hq
                rcases List.mem_cons.mp hq with hq | hq
                · subst hq
                  show 0 ≤ sizes.getD i0 0
                  omega
                · exact ih2 q hq
              · intro n hn
                rcases List.mem_cons.mp hn with hn | hn
                · subst hn
                  have hA : sizes.getD i0 0 ≤ wid := hboundhead
                  refine ⟨fun m hm => ?_, fun m hm => ?_⟩
                  · simp only [sizeOfN, Option.some.injEq] at hm
                    subst hm
                    constructor <;> omega
                  · simp only [sizeOfN, Option.some.injEq] at hm
                    subst hm
                    constructor <;> omega
                · exact ih3 n hn
            · rw [if_neg hc] at hpn
              exact absurd hpn (by simp)
    | branch c =>
      simp only [assembleImm] at h
      cases hta : assembleImm o top left hgt wid (i0 + 1) rest sizes placed with
      | none => simp only [hta] at h; exact absurd h (by simp)
      | some tail =>
        simp only [hta, Option.some.injEq] at h
        subst h
        have hboundtail : ∀ p ∈ (classifyAux (i0 + 1) rest).1,
            sizes.getD p.1 0 ≤ activeExtent o hgt wid := by
          intro p hp
          refine hbound p ?_
          rw [classifyAux]
          exact hp
        obtain ⟨ih1, ih2, ih3⟩ := ih (i0 + 1) sizes placed tail hta hplaced
          hboundtail hh
        refine ⟨?_, ?_, ?_⟩
        · rw [immediateExtents, classifyAux, ih1]
        · intro q hq
          rw [classifyAux] at hq
          exact ih2 q hq
        · intro n hn
          rcases List.mem_cons.mp hn with hn | hn
          · subst hn
            cases hlk : List.lookup i0 placed with
            | some sub =>
              have hmem := lookup_mem placed i0 sub hlk
              have hq := hplaced (i0, sub) hmem
              refine ⟨fun m hm => ?_, fun m hm => ?_⟩
              · rw [sizeOfN_branch] at hm
                exact hq.1 m hm
              · rw [sizeOfN_branch] at hm
                exact hq.2 m hm
            | none =>
              refine ⟨fun m hm => ?_, fun m hm => ?_⟩ <;>
                · rw [sizeOfN_branch] at hm
                  simp only [Option.getD_none, subw_layout_size, sizesOfL, pymax] at hm
                  exact absurd hm (by simp)
          · exact ih3 n hn

/-- The sublist loop never touches sizes entries outside its pending set
(no added hypotheses, so usable before the running-total bounds are known). -/
theorem allocCmplx_untouched
    (rec : List LNode → Int → Int → Int → Int → Orient → Option (List PNode × List Int))
    (top left hgt wid : Int) (o : Orient) :
    ∀ (pending : List (Nat × List LNode)) (sizes : List Int) (used units : Int)
      (sizes2 : List Int) (used2 : Int) (placed : List (Nat × List PNode)),
    allocCmplx rec top left hgt wid o pending sizes used units =
      some (sizes2, used2, placed) →
    sizes2.length = sizes.length ∧
    (∀ j, (∀ p ∈ pending, p.1 ≠ j) → sizes2.getD j 0 = sizes.getD j 0) := by
  intro pending
  induction pending with
  | nil =>
    intro sizes used units sizes2 used2 placed h
    rw [allocCmplx] at h
    simp only [Option.some.injEq, Prod.mk.injEq] at h
    obtain ⟨h1, _, _⟩ := h
    subst h1
    exact ⟨rfl, fun j _ => rfl⟩
  | cons p rest ih =>
    obtain ⟨i, unit⟩ := p
    intro sizes used units sizes2 used2 placed h
    cases o with
    | horizontal =>
      simp only [allocCmplx] at h
      cases hr : rec unit top (left + (List.take i sizes).sum) hgt
          ((wid - used).fdiv units) Orient.vertical with
      | none => rw [hr] at h; exact absurd h (by simp)
      | some rp =>
        simp only [hr] at h
        cases hm : subw_layout_size Dim.width rp.1 with
        | none => simp only [hm] at h; exact absurd h (by simp)
        | some sz =>
          simp only [hm] at h
          cases ha : allocCmplx rec top left hgt wid Orient.horizontal rest
              (sizes.set i sz) (used + sz) (units - 1) with
          | none => simp only [ha] at h; exact absurd h (by simp)
          | some out =>
            simp only [ha, Option.some.injEq, Prod.mk.injEq] at h
            obtain ⟨h1, _, _⟩ := h
            obtain ⟨ih1, ih2⟩ := ih (sizes.set i sz) (used + sz) (units - 1)
              out.1 out.2.1 out.2.2 (by rw [ha])
            subst h1
            constructor
            · rw [ih1, List.length_set]
            · intro j hj
              rw [ih2 j (fun q hq => hj q (List.mem_cons_of_mem _ hq)),
                getD_set_ne sizes i j sz (hj _ (List.mem_cons_self _ _))]
    | vertical =>
      simp only [allocCmplx] at h
      cases hr : rec unit (top + (List.take i sizes).sum) left
          ((hgt - used).fdiv units) wid Orient.horizontal with
      | none => rw [hr] at h; exact absurd h (by simp)
      | some rp =>
        simp only [hr] at h
        cases hm : subw_layout_size Dim.height rp.1 with
        | none => simp only [hm] at h; exact absurd h (by simp)
        | some sz =>
          simp only [hm] at h
          cases ha : allocCmplx rec top left hgt wid Orient.vertical rest
              (sizes.set i sz) (used + sz) (units - 1) with
          | none => simp only [ha] at h; exact absurd h (by simp)
          | some out =>
            simp only [ha, Option.some.injEq, Prod.mk.injEq] at h
            obtain ⟨h1, _, _⟩ := h
            obtain ⟨ih1, ih2⟩ := ih (sizes.set i sz) (used + sz) (units - 1)
              out.1 out.2.1 out.2.2 (by rw [ha])
            subst h1
            constructor
            · rw [ih1, List.length_set]
            · intro j hj
              rw [ih2 j (fun q hq => hj q (List.mem_cons_of_mem _ hq)),
                getD_set_ne sizes i j sz (hj _ (List.mem_cons_self _ _))]

/-- A successful placement certifies a nonnegative sizes entry for every
classified immediate (the pad creation checked `0 < height + 1` resp.
`0 < width`), independently of any other bookkeeping. -/
theorem assembleImm_nonneg (o : Orient) (top left hgt wid : Int) :
    ∀ (layout : List LNode) (i0 : Nat) (sizes : List Int)
      (placed : List (Nat × List PNode)) (out : List PNode),
    assembleImm o top left hgt wid i0 layout sizes placed = some out →
    ∀ p ∈ (classifyAux i0 layout).1, 0 ≤ sizes.getD p.1 0 := by
  intro layout
  induction layout with
  | nil =>
    intro i0 sizes placed out _ p hp
    rw [classifyAux] at hp
    exact absurd hp (by simp)
  | cons x rest ih =>
    intro i0 sizes placed out h p hp
    cases x with
    | leaf r =>
      simp only [assembleImm] at h
      rw [classifyAux] at hp
      cases o with
      | vertical =>
        cases hpn : subw_init r (top + (List.take i0 sizes).sum) left
            (sizes.getD i0 0) wid with
        | none => simp only [hpn] at h; exact absurd h (by simp)
        | some q =>
          cases hta : assembleImm Orient.vertical top left hgt wid (i0 + 1)
              rest sizes placed with
          | none => simp only [hpn, hta] at h; exact absurd h (by simp)
          | some tail =>
            rcases List.mem_cons.mp hp with hp | hp
            · subst hp
              rw [subw_init] at hpn
              by_cases hc : 0 < sizes.getD i0 0 + 1 ∧ 0 < wid
              · show 0 ≤ sizes.getD i0 0
                omega
              · rw [if_neg hc] at hpn
                exact absurd hpn (by simp)
            · exact ih (i0 + 1) sizes placed tail hta p hp
      | horizontal =>
        cases hpn : subw_init r top (left + (List.take i0 sizes).sum) hgt
            (sizes.getD i0 0) with
        | none => simp only [hpn] at h; exact absurd h (by simp)
        | some q =>
          cases hta : assembleImm Orient.horizontal top left hgt wid (i0 + 1)
              rest sizes placed with
          | none => simp only [hpn, hta] at h; exact absurd h (by simp)
          | some tail =>
            rcases List.mem_cons.mp hp with hp | hp
            · subst hp
              rw [subw_init] at hpn
              by_cases hc : 0 < hgt + 1 ∧ 0 < sizes.getD i0 0
              · show 0 ≤ sizes.getD i0 0
                omega
              · rw [if_neg hc] at hpn
                exact absurd hpn (by simp)
            · exact ih (i0 + 1) sizes placed tail hta p hp
    | branch c =>
      simp only [assembleImm] at h
      rw [classifyAux] at hp
      cases hta : assembleImm o top left hgt wid (i0 + 1) rest sizes placed with
      | none => simp only [hta] at h; exact absurd h (by simp)
      | some tail =>
        exact ih (i0 + 1) sizes placed tail hta p hp

/-- Every measure in a successful `sizesOfL` run comes from some element. -/
theorem sizesOfL_mem (d : Dim) (l : List PNode) (s : List Int)
    (h : sizesOfL d l = some s) : ∀ x ∈ s, ∃ n ∈ l, sizeOfN d n = some x := by
  induction l generalizing s with
  | nil =>
    rw [sizesOfL] at h
    cases h
    simp
  | cons p rest ih =>
    rw [sizesOfL] at h
    cases hp : sizeOfN d p with
    | none => rw [hp] at h; exact absurd h (by simp)
    | some v =>
      rw [hp] at h
      cases hr : sizesOfL d rest with
      | none => rw [hr] at h; exact absurd h (by simp)
      | some vs =>
        rw [hr] at h
        cases h
        intro x hx
        rcases List.mem_cons.mp hx with hx | hx
        · exact ⟨p, List.mem_cons_self p rest, by rw [hp, hx]⟩
        · obtain ⟨n, hn, hn2⟩ := ih vs hr x hx
          exact ⟨n, List.mem_cons_of_mem p hn, hn2⟩

/-- Master invariant of the fuel-indexed `_subw`: every successful call keeps
its allocations within the target rectangle (`SubwGood`) and sizes its
immediate leaves exactly per the specification's allocation sequence. -/
theorem subwF_master : ∀ (fuel : Nat) (layout : List LNode)
    (top left hgt wid : Int) (o : Orient) (pl : List PNode) (sz : List Int),
    0 ≤ hgt → 0 ≤ wid →
    subwF fuel layout top left hgt wid o = some (pl, sz) →
    SubwGood hgt wid o pl sz ∧
    immediateExtents o pl =
      specImmediateAlloc o (immediateRegions layout) (activeExtent o hgt wid)
        ((layout.length : Int)) := by
  intro fuel
  induction fuel with
  | zero =>
    intro layout top left hgt wid o pl sz _ _ h
    rw [subwF] at h
    exact absurd h (by simp)
  | succ fuel ihf =>
    intro layout top left hgt wid o pl sz hh hw h
    simp only [subwF] at h
    cases hpb : allocCmplx (subwF fuel) top left hgt wid o (classifyAux 0 layout).2
        (allocImm o hgt wid (classifyAux 0 layout).1
          (List.replicate layout.length 0) 0 ((layout.length : Int))).1
        (allocImm o hgt wid (classifyAux 0 layout).1
          (List.replicate layout.length 0) 0 ((layout.length : Int))).2
        (((classifyAux 0 layout).2.length : Int)) with
    | none => simp only [hpb] at h; exact absurd h (by simp)
    | some pb =>
      simp only [hpb] at h
      cases has : assembleImm o top left hgt wid 0 layout pb.1 pb.2.2 with
      | none => simp only [has] at h; exact absurd h (by simp)
      | some out =>
        simp only [has, Option.some.injEq, Prod.mk.injEq] at h
        obtain ⟨h1, h2⟩ := h
        subst h1
        subst h2
        have hext0 : 0 ≤ activeExtent o hgt wid := by
          cases o with
          | horizontal => exact hw
          | vertical => exact hh
        have hs1 := (classify_sorted 0 layout).1
        have hs2 := (classify_sorted 0 layout).2
        have hdisj := classify_disjoint 0 layout
        have hregs := classify_regions 0 layout
        have hb1 : ∀ p ∈ (classifyAux 0 layout).1,
            p.1 < (List.replicate layout.length (0 : Int)).length := by
          intro p hp
          rw [List.length_replicate]
          have := (classify_bounds 0 layout).1 p hp
          omega
        have hz1 : ∀ p ∈ (classifyAux 0 layout).1,
            (List.replicate layout.length (0 : Int)).getD p.1 0 = 0 :=
          fun p _ => getD_replicate_zero _ _
        obtain ⟨hA1, hA2, hA3, hA4, hA5⟩ := allocImm_spec o hgt wid
          (classifyAux 0 layout).1 (List.replicate layout.length 0) 0
          ((layout.length : Int)) hs1 hb1 hz1
        rw [sub_zero] at hA3 hA4 hA5
        obtain ⟨hBu1, hBu2⟩ := allocCmplx_untouched (subwF fuel) top left hgt wid o
          (classifyAux 0 layout).2
          (allocImm o hgt wid (classifyAux 0 layout).1
            (List.replicate layout.length 0) 0 ((layout.length : Int))).1
          (allocImm o hgt wid (classifyAux 0 layout).1
            (List.replicate layout.length 0) 0 ((layout.length : Int))).2
          (((classifyAux 0 layout).2.length : Int)) pb.1 pb.2.1 pb.2.2 hpb
        have hsame : ∀ p ∈ (classifyAux 0 layout).1,
            pb.1.getD p.1 0 =
              (allocImm o hgt wid (classifyAux 0 layout).1
                (List.replicate layout.length 0) 0
                ((layout.length : Int))).1.getD p.1 0 := by
          intro p hp
          exact hBu2 p.1 (fun q hq => Ne.symm (hdisj p hp q hq))
        have hnonneg := assembleImm_nonneg o top left hgt wid layout 0 pb.1 pb.2.2 out has
        have hnn : ∀ v ∈ specImmediateAlloc o ((classifyAux 0 layout).1.map Prod.snd)
            (activeExtent o hgt wid) ((layout.length : Int)), 0 ≤ v := by
          intro v hv
          rw [← hA3] at hv
          obtain ⟨p, hp, hpv⟩ := List.mem_map.mp hv
          rw [← hpv, ← hsame p hp]
          exact hnonneg p hp
        have hcast : ((((classifyAux 0 layout).1.map Prod.snd).length : Int)) ≤
            ((layout.length : Int)) := by
          rw [List.length_map]
          have := classify_length 0 layout
          omega
        obtain ⟨hsum_le, hvals_le⟩ := specAlloc_bound o
          ((classifyAux 0 layout).1.map Prod.snd) (activeExtent o hgt wid)
          ((layout.length : Int)) hext0 hcast hnn
        have hpa2 : (allocImm o hgt wid (classifyAux 0 layout).1
            (List.replicate layout.length 0) 0 ((layout.length : Int))).2 =
            (specImmediateAlloc o ((classifyAux 0 layout).1.map Prod.snd)
              (activeExtent o hgt wid) ((layout.length : Int))).sum := by
          rw [hA4]
          ring
        have hpa2_0 : 0 ≤ (allocImm o hgt wid (classifyAux 0 layout).1
            (List.replicate layout.length 0) 0 ((layout.length : Int))).2 := by
          rw [hpa2]
          exact List.sum_nonneg hnn
        have hpa2_E : (allocImm o hgt wid (classifyAux 0 layout).1
            (List.replicate layout.length 0) 0 ((layout.length : Int))).2 ≤
            activeExtent o hgt wid := by
          rw [hpa2]
          exact hsum_le
        have hrec : ∀ (sub : List LNode) (t' l' h' w' : Int) (o' : Orient)
            (pl' : List PNode) (sz' : List Int), 0 ≤ h' → 0 ≤ w' →
            subwF fuel sub t' l' h' w' o' = some (pl', sz') →
            SubwGood h' w' o' pl' sz' :=
          fun sub t' l' h' w' o' pl' sz' a b c =>
            (ihf sub t' l' h' w' o' pl' sz' a b c).1
        have hb2 : ∀ p ∈ (classifyAux 0 layout).2,
            p.1 < (allocImm o hgt wid (classifyAux 0 layout).1
              (List.replicate layout.length 0) 0 ((layout.length : Int))).1.length := by
          intro p hp
          rw [hA1, List.length_replicate]
          have := (classify_bounds 0 layout).2 p hp
          omega
        have hz2 : ∀ p ∈ (classifyAux 0 layout).2,
            (allocImm o hgt wid (classifyAux 0 layout).1
              (List.replicate layout.length 0) 0
              ((layout.length : Int))).1.getD p.1 0 = 0 := by
          intro p hp
          rw [hA2 p.1 (fun q hq => hdisj q hq p hp), getD_replicate_zero]
        obtain ⟨hB1, hB2, hB3, hB4, hB5, hB6, hB7⟩ := allocCmplx_spec (subwF fuel)
          top left hgt wid o hrec hh hw (classifyAux 0 layout).2
          (allocImm o hgt wid (classifyAux 0 layout).1
            (List.replicate layout.length 0) 0 ((layout.length : Int))).1
          (allocImm o hgt wid (classifyAux 0 layout).1
            (List.replicate layout.length 0) 0 ((layout.length : Int))).2
          (((classifyAux 0 layout).2.length : Int)) pb.1 pb.2.1 pb.2.2
          hs2 hb2 hz2 (le_refl _) hpa2_0 hpa2_E hpb
        have hszbound : ∀ p ∈ (classifyAux 0 layout).1,
            pb.1.getD p.1 0 ≤ activeExtent o hgt wid := by
          intro p hp
          rw [hsame p hp]
          refine hvals_le _ ?_
          rw [← hA3]
          exact List.mem_map_of_mem _ hp
        obtain ⟨hAs1, hAs2, hAs3⟩ := assembleImm_spec o top left hgt wid layout 0
          pb.1 pb.2.2 out has hB7 hszbound hh
        refine ⟨⟨?_, ?_, ?_⟩, ?_⟩
        · rw [hB5, hA5, sum_replicate_zero, hpa2]
          have := hB4
          omega
        · intro m hm
          rw [subw_layout_size] at hm
          cases hsl : sizesOfL Dim.height out with
          | none => simp only [hsl] at hm; exact absurd hm (by simp)
          | some s =>
            simp only [hsl] at hm
            obtain ⟨hmem, _⟩ := pymax_spec s m hm
            obtain ⟨nn, hn2, hn3⟩ := sizesOfL_mem Dim.height out s hsl m hmem
            exact (hAs3 nn hn2).1 m hn3
        · intro m hm
          rw [subw_layout_size] at hm
          cases hsl : sizesOfL Dim.width out with
          | none => simp only [hsl] at hm; exact absurd hm (by simp)
          | some s =>
            simp only [hsl] at hm
            obtain ⟨hmem, _⟩ := pymax_spec s m hm
            obtain ⟨nn, hn2, hn3⟩ := sizesOfL_mem Dim.width out s hsl m hmem
            exact (hAs3 nn hn2).2 m hn3
        · rw [hAs1, List.map_congr_left hsame, hA3, hregs]

/-- C1: for every layout node successfully laid out by the geometry engine
into a target rectangle with a given orientation, the sum of the sizes
allocated to the children along the active axis never exceeds the target
extent along that axis, and each immediate leaf's allocated size equals
min(configured-max, requested-size, its computed share), where a zero/unset
configured-max is unbounded and the computed share is the remaining space
divided by the remaining unit count, decreasing by one per allocated
immediate. -/
theorem C1_subw_alloc (layout : List LNode) (top left height width : Int)
    (o : Orient) (out : List PNode × List Int)
    (hh : 0 ≤ height) (hw : 0 ≤ width)
    (h : subw layout top left height width o = some out) :
    out.2.sum ≤ activeExtent o height width ∧
    immediateExtents o out.1 =
      specImmediateAlloc o (immediateRegions layout) (activeExtent o height width)
        ((layout.length : Int)) := by
  have hm := subwF_master (depthL layout + 1) layout top left height width o
    out.1 out.2 hh hw (by rw [subw] at h; exact h)
  exact ⟨hm.1.1, hm.2⟩

/-- Witness for C1 at the concrete layout `exLayout` on a 24x80 screen. -/
theorem C1_subw_alloc_witness :
    exLayoutOut.2.sum ≤ activeExtent Orient.vertical 24 80 ∧
    immediateExtents Orient.vertical exLayoutOut.1 =
      specImmediateAlloc Orient.vertical (immediateRegions exLayout)
        (activeExtent Orient.vertical 24 80) ((exLayout.length : Int)) :=
  C1_subw_alloc exLayout 0 0 24 80 Orient.vertical exLayoutOut (by decide) (by decide)
    (by rfl)

end CantoCurses
